import Mathlib

/-!
# Verification of the GBA save media access layer and its self-test

This development embeds, in Lean 4:

* the self-test example `examples/test_savegame.rs` (the `Rng` pseudo-random
  generator, the chunked write/validate loops of `do_test`, and the media
  configuration performed by `main`), translated from the source; and
* the save media access layer (`MediaType`, `SaveAccess`, the erase
  coordinator and the timeout-bounded polling), whose source is not part of
  this repository snapshot: those definitions are modelled from the
  specification (each such definition's doc comment starts with
  `Modelled from the spec:`).

Machine integers are represented as `Nat` with explicit reduction modulo
`2 ^ 32` (for the `u32` RNG state) and modulo `2 ^ 8` (for bytes).
-/

namespace GbaSave

/-! ## The test harness RNG, from `examples/test_savegame.rs`

```rust
struct Rng(u32);
impl Rng {
  fn iter(&mut self) { self.0 = self.0 * 2891336453 + 100001; }
  fn next_u8(&mut self) -> u8 {
    self.iter();
    (self.0 >> 22) as u8 ^ self.0 as u8
  }
}
```
-/

/-- `Rng::iter`: the `u32` state update `state * 2891336453 + 100001`,
with wrapping (`mod 2 ^ 32`) arithmetic. -/
def rngIter (s : Nat) : Nat :=
  (s * 2891336453 + 100001) % 2 ^ 32

/-- `Rng::next_u8`: advance the state with `iter`, then return
`(state >> 22) as u8 ^ state as u8`.  Each `as u8` cast truncates to
8 bits before the XOR, exactly as in the source.  Returns the new state
paired with the produced byte. -/
def rngNextU8 (s : Nat) : Nat × Nat :=
  let s' := rngIter s
  (s', ((s' >>> 22) % 2 ^ 8) ^^^ (s' % 2 ^ 8))

/-- Recursion worker for `rngState`, counting down the number of
`next_u8` calls. -/
def rngStateAux : Nat → Nat → Nat
  | 0, s => s
  | n + 1, s => rngStateAux n (rngNextU8 s).1

/-- The state of the RNG after producing `n` bytes with `next_u8`. -/
def rngState (s n : Nat) : Nat := rngStateAux n s

/-- Recursion worker for `rngBytes`, counting down the number of
`next_u8` calls. -/
def rngBytesAux : Nat → Nat → List Nat
  | 0, _ => []
  | n + 1, s => (rngNextU8 s).2 :: rngBytesAux n (rngNextU8 s).1

/-- The list of the first `n` bytes produced from state `s` by repeated
`next_u8` calls. -/
def rngBytes (s n : Nat) : List Nat := rngBytesAux n s

/-- `MAX_BLOCK_SIZE` from the test harness: `4 * 1024`. -/
def MAX_BLOCK_SIZE : Nat := 4 * 1024

/-! ## The save media access layer, modelled from the spec -/

/-- Modelled from the spec: the closed set of media variants
(`MediaType`), "tag identifying which of the five variants is physically
present". -/
inductive MediaType where
  | Sram
  | Flash64K
  | Flash128K
  | Eeprom512
  | Eeprom8K
  deriving DecidableEq, Repr

/-- Modelled from the spec: the `Error` taxonomy shared by every fallible
operation of the layer. -/
inductive Error where
  | OutOfBounds
  | Busy
  | Timeout
  | VerifyFailed
  | Unconfigured
  deriving DecidableEq, Repr

/-- Modelled from the spec: each variant's total addressable size in
bytes (`len()`), the "documented capacity" of the chip.  The spec fixes
Flash64K = 65536 and Flash128K = 131072 explicitly; the remaining
variants carry their standard GBA capacities, which their names encode
(32 KiB battery-backed SRAM, 512-byte and 8-KiB serial EEPROM). -/
def mediaLen : MediaType → Nat
  | .Sram => 32768
  | .Flash64K => 65536
  | .Flash128K => 131072
  | .Eeprom512 => 512
  | .Eeprom8K => 8192

/-- Modelled from the spec: each variant's erase-sector size in bytes,
"0 for SRAM/EEPROM — no erase needed"; flash sectors are 4096 bytes. -/
def sectorSize : MediaType → Nat
  | .Sram => 0
  | .Flash64K => 4096
  | .Flash128K => 4096
  | .Eeprom512 => 0
  | .Eeprom8K => 0

/-- Modelled from the spec: `MediaInfo`
`{ media_type, total_size_bytes, sector_size_bytes }`, "derived,
read-only, recomputed on demand from MediaType". -/
structure MediaInfo where
  media_type : MediaType
  total_size_bytes : Nat
  sector_size_bytes : Nat
  deriving DecidableEq, Repr

/-- Modelled from the spec: `media_info()` recomputes the `MediaInfo`
record from the configured media type. -/
def mediaInfo (mt : MediaType) : MediaInfo :=
  ⟨mt, mediaLen mt, sectorSize mt⟩

/-- Modelled from the spec: `SaveAccess::new()` resolves the process-wide
media configuration; it "fails `Unconfigured` if no media type was ever
selected".  The handle it returns is just the resolved media type. -/
def saveAccessNew : Option MediaType → Except Error MediaType
  | none => .error .Unconfigured
  | some mt => .ok mt

/-- Modelled from the spec: the observable state of the medium together
with the erase-session bookkeeping of the `EraseCoordinator`:
the byte content of the medium, the list of sector indices already
erased in the current session, and an erase-count instrumentation
counter ("observable via an erase-count instrumentation hook in
tests"). -/
structure SaveState where
  mediaType : MediaType
  mem : Nat → Nat
  session : List Nat
  eraseCount : Nat

/-- The total addressable length of the configured medium
(`SaveAccess::len`). -/
def SaveState.len (s : SaveState) : Nat := mediaLen s.mediaType

/-- A fresh medium holding all-zero bytes with an empty erase session. -/
def initState (mt : MediaType) : SaveState :=
  ⟨mt, fun _ => 0, [], 0⟩

/-- Modelled from the spec: `read(offset, buffer)` "copies bytes
directly; fails `OutOfBounds` if `offset + buffer.len() > total_size`".
The buffer of length `n` is returned as the list of bytes read,
together with the error, if any; on `OutOfBounds` no hardware access
happens, so the returned buffer is empty. -/
def readBytes (s : SaveState) (offset n : Nat) : List Nat × Option Error :=
  if offset + n > s.len then ([], some .OutOfBounds)
  else ((List.range n).map (fun i => s.mem (offset + i)), none)

/-- Modelled from the spec: `write(offset, bytes)` delegates to
`raw_program`; "`OutOfBounds` if `offset + bytes.len() > len()`".  On
success the bytes land in the medium (the program-plus-verify protocol
of working hardware); on error the medium is untouched. -/
def writeBytes (s : SaveState) (offset : Nat) (bytes : List Nat) :
    SaveState × Option Error :=
  if offset + bytes.length > s.len then (s, some .OutOfBounds)
  else
    ({ s with
        mem := fun a =>
          if offset ≤ a ∧ a < offset + bytes.length then bytes.getD (a - offset) 0
          else s.mem a },
      none)

/-- Modelled from the spec: the covering sector indices of a byte range,
"the inclusive set of sector indices
⌊range.start / sector_size⌋ ..= ⌊(range.end - 1) / sector_size⌋",
as an ascending list; empty for an empty range. -/
def sectorIdxList (a b sz : Nat) : List Nat :=
  if a < b then List.range' (a / sz) ((b - 1) / sz - a / sz + 1) else []

/-- Modelled from the spec: a flash sector erase sets every byte of the
sector to the erased value, "typically all bits set" (`0xFF`). -/
def eraseMem (mem : Nat → Nat) (i sz : Nat) : Nat → Nat :=
  fun a => if i * sz ≤ a ∧ a < (i + 1) * sz then 0xFF else mem a

/-- Modelled from the spec: the erase loop of the `EraseCoordinator`.
It walks the covering sector list in order, skips sectors already
marked erased in the current session, and physically erases the others
through `raw_erase_sector`; `chip i` is the hardware's response to
erasing sector `i` (`none` = success).  "Failure of any single sector
erase aborts the whole call and returns that sector's error; sectors
erased earlier in the same call remain erased." -/
def eraseSectors (chip : Nat → Option Error) :
    List Nat → SaveState → SaveState × Option Error
  | [], s => (s, none)
  | i :: rest, s =>
    if i ∈ s.session then eraseSectors chip rest s
    else
      match chip i with
      | some e => (s, some e)
      | none =>
        eraseSectors chip rest
          { s with
            mem := eraseMem s.mem i (sectorSize s.mediaType),
            session := s.session ++ [i],
            eraseCount := s.eraseCount + 1 }

/-- A chip on which every sector erase succeeds. -/
def chipOk : Nat → Option Error := fun _ => none

/-- A chip on which erasing sector `j` fails with error `e` and every
other sector erase succeeds. -/
def chipFail (j : Nat) (e : Error) : Nat → Option Error :=
  fun i => if i = j then some e else none

/-- Modelled from the spec: `prepare_write(range)`.  Validates the range
against the total size (`OutOfBounds` otherwise); a no-op success when
`sector_size = 0` (SRAM/EEPROM); otherwise erases each covering sector
not already erased in the current session, in ascending index order,
marking each as erased. -/
def prepareWrite (chip : Nat → Option Error) (s : SaveState) (a b : Nat) :
    SaveState × Option Error :=
  if b > s.len then (s, some .OutOfBounds)
  else if sectorSize s.mediaType = 0 then (s, none)
  else eraseSectors chip (sectorIdxList a b (sectorSize s.mediaType)) s

/-! ## Timeout-bounded polling, modelled from the spec -/

/-- Modelled from the spec: the bounded completion poll.  Flash and
EEPROM have no completion interrupt, so each hardware wait is a busy
poll of the chip's status, "bounded by `TimedWait`": `status k` tells
whether the chip reports completion at poll iteration `k`.  `poll`
returns the operation result together with the number of poll
iterations performed; when the budget `n` runs out it fails `Timeout`. -/
def poll (status : Nat → Bool) : Nat → Nat → Except Error Unit × Nat
  | 0, k => (.error .Timeout, k)
  | n + 1, k => if status k then (.ok (), k + 1) else poll status n (k + 1)

/-- Modelled from the spec: `raw_erase_sector` issues the unlock plus
sector-erase command sequence and then polls completion, bounded. -/
def rawEraseSector (status : Nat → Bool) (bound : Nat) : Except Error Unit × Nat :=
  poll status bound 0

/-- Modelled from the spec: `raw_program` programs the buffer and polls
completion per unit, bounded; a chip that never completes times out on
the very first unit. -/
def rawProgram (status : Nat → Bool) (bound : Nat) : Except Error Unit × Nat :=
  poll status bound 0

/-- Modelled from the spec: EEPROM `raw_read` issues the serial
read-request sequence and polls completion before the data is valid,
bounded. -/
def rawRead (status : Nat → Bool) (bound : Nat) : Except Error Unit × Nat :=
  poll status bound 0

/-! ## The `do_test` loops, from `examples/test_savegame.rs`

```rust
let mut current = offset;
let end = offset + len;
while current != end {
  let cur_len = cmp::min(end - current, block_size);
  ...
  current += cur_len;
}
```
-/

/-- One iteration of the `do_test` loop counter: `current` advances by
`cur_len = min(end - current, block_size)`. -/
def loopStep (bs endp current : Nat) : Nat :=
  current + min (endp - current) bs

/-- The successive `(current, cur_len)` chunks visited by the `do_test`
loops.  The recursion is guarded by `current < endp ∧ 0 < bs`, the case
in which the source loop makes progress and terminates; the
non-progressing `bs = 0` case is analysed separately through
`loopStep`. -/
def chunks (bs : Nat) (current endp : Nat) : List (Nat × Nat) :=
  if h : current < endp ∧ 0 < bs then
    (current, min (endp - current) bs) ::
      chunks bs (current + min (endp - current) bs) endp
  else []
termination_by endp - current
decreasing_by
  have h1 : 0 < min (endp - current) bs := by
    exact lt_min_iff.mpr ⟨Nat.sub_pos_of_lt h.1, h.2⟩
  omega

/-- The half-open range of byte addresses a `(start, size)` chunk
touches. -/
def chunkRange (c : Nat × Nat) : List Nat :=
  List.range' c.1 c.2

/-- The write pass of `do_test`: fill the buffer with `cur_len` bytes
from the RNG, `access.write(current, &buffer[..cur_len])?`, advance.
Returns the final medium state, the final RNG state, and the first
error, if any. -/
def writeLoop (bs : Nat) (st : SaveState) (rs current endp : Nat) :
    SaveState × Nat × Option Error :=
  if h : current < endp ∧ 0 < bs then
    let cur_len := min (endp - current) bs
    let r := writeBytes st current (rngBytes rs cur_len)
    if r.2 = none then
      writeLoop bs r.1 (rngState rs cur_len) (current + cur_len) endp
    else (r.1, rngState rs cur_len, r.2)
  else (st, rs, none)
termination_by endp - current
decreasing_by
  have h1 : 0 < min (endp - current) bs := by
    exact lt_min_iff.mpr ⟨Nat.sub_pos_of_lt h.1, h.2⟩
  omega

/-- The validation pass of `do_test`: read `cur_len` bytes back, compare
each with the byte re-derived from the cloned RNG (`assert!` on
mismatch), advance.  Returns `(none, true)` when every chunk read back
matches; a read error surfaces as `(some e, false)`; an assertion
failure as `(none, false)`. -/
def validateLoop (bs : Nat) (st : SaveState) (rs current endp : Nat) :
    Option Error × Bool :=
  if h : current < endp ∧ 0 < bs then
    let cur_len := min (endp - current) bs
    let r := readBytes st current cur_len
    if r.2 = none then
      if r.1 = rngBytes rs cur_len then
        validateLoop bs st (rngState rs cur_len) (current + cur_len) endp
      else (none, false)
    else (r.2, false)
  else (none, true)
termination_by endp - current
decreasing_by
  have h1 : 0 < min (endp - current) bs := by
    exact lt_min_iff.mpr ⟨Nat.sub_pos_of_lt h.1, h.2⟩
  omega

/-- `do_test(seed, offset, len, block_size)` over a configured medium:
`prepare_write(offset..offset + len)?`, the chunked write pass seeded
with a clone of `seed`, then the chunked validation pass seeded with a
fresh clone of `seed`.  Returns the final medium state, the first error
if any, and whether every validation assertion passed. -/
def doTest (st : SaveState) (seed offset len bs : Nat) :
    SaveState × Option Error × Bool :=
  if (prepareWrite chipOk st offset (offset + len)).2 = none then
    if (writeLoop bs (prepareWrite chipOk st offset (offset + len)).1 seed
        offset (offset + len)).2.2 = none then
      ((writeLoop bs (prepareWrite chipOk st offset (offset + len)).1 seed
          offset (offset + len)).1,
        (validateLoop bs
          (writeLoop bs (prepareWrite chipOk st offset (offset + len)).1
            seed offset (offset + len)).1 seed offset (offset + len)).1,
        (validateLoop bs
          (writeLoop bs (prepareWrite chipOk st offset (offset + len)).1
            seed offset (offset + len)).1 seed offset (offset + len)).2)
    else
      ((writeLoop bs (prepareWrite chipOk st offset (offset + len)).1 seed
          offset (offset + len)).1,
        (writeLoop bs (prepareWrite chipOk st offset (offset + len)).1 seed
          offset (offset + len)).2.2,
        false)
  else
    ((prepareWrite chipOk st offset (offset + len)).1,
      (prepareWrite chipOk st offset (offset + len)).2,
      false)

/-! ## The `main` scenario, from `examples/test_savegame.rs` -/

/-- The media type configured by `main`: the source calls
`use_flash_128k()` before constructing the `SaveAccess` handle. -/
def mainMediaType : MediaType := .Flash128K

/-- The second full-coverage pass of `main`:
`do_test(Rng(1000), 0, access.len(), 512)` — seed 1000, offset 0,
length `access.len()`, 512-byte blocks for both the write pass and the
validation pass. -/
def mainHalfKTest : SaveState × Option Error × Bool :=
  doTest (initState mainMediaType) 1000 0 (mediaLen mainMediaType) 512

/-! ## Helper lemmas -/

/-- Truncating two numbers to the low `k` bits and XOR-ing equals
XOR-ing and then truncating. -/
lemma xor_mod_two_pow (a b k : Nat) :
    (a % 2 ^ k) ^^^ (b % 2 ^ k) = (a ^^^ b) % 2 ^ k := by
  apply Nat.eq_of_testBit_eq
  intro i
  simp only [Nat.testBit_mod_two_pow, Nat.testBit_xor]
  by_cases h : i < k <;> simp [h]

/-- A poll against a chip that never reports completion exhausts the
whole budget `n` and fails `Timeout`, having performed exactly `n`
further iterations. -/
lemma poll_never_ready (status : Nat → Bool) (h : ∀ k, status k = false) :
    ∀ n k, poll status n k = (.error .Timeout, k + n) := by
  intro n
  induction n with
  | zero => intro k; simp [poll]
  | succ m ih =>
    intro k
    simp only [poll, h k, Bool.false_eq_true, if_false, ih (k + 1)]
    congr 1
    omega

/-- The covering sector list of any range has no duplicate index. -/
lemma sectorIdxList_nodup (a b sz : Nat) : (sectorIdxList a b sz).Nodup := by
  unfold sectorIdxList
  split
  · simp [List.nodup_range']
  · exact List.nodup_nil

/-- The covering sector list is strictly ascending. -/
lemma sectorIdxList_pairwise (a b sz : Nat) :
    (sectorIdxList a b sz).Pairwise (· < ·) := by
  unfold sectorIdxList
  split
  · simp [List.pairwise_lt_range']
  · exact List.Pairwise.nil

/-- Walking a duplicate-free sector list with an always-succeeding chip
succeeds, keeps the media type, appends to the session exactly the
listed sectors not already in it (in list order), and bumps the erase
count by exactly the number of those new sectors. -/
lemma eraseSectors_chipOk (l : List Nat) :
    ∀ s : SaveState, l.Nodup →
    (eraseSectors chipOk l s).2 = none ∧
    (eraseSectors chipOk l s).1.mediaType = s.mediaType ∧
    (eraseSectors chipOk l s).1.session =
      s.session ++ l.filter (fun i => decide (i ∉ s.session)) ∧
    (eraseSectors chipOk l s).1.eraseCount =
      s.eraseCount + (l.filter (fun i => decide (i ∉ s.session))).length := by
  induction l with
  | nil => intro s _; simp [eraseSectors]
  | cons i rest ih =>
    intro s hnd
    have hnotmem : i ∉ rest := (List.nodup_cons.mp hnd).1
    have hndrest : rest.Nodup := (List.nodup_cons.mp hnd).2
    by_cases h : i ∈ s.session
    · have hrec := ih s hndrest
      simp only [eraseSectors, if_pos h]
      simpa [h] using hrec
    · have hchip : chipOk i = none := rfl
      simp only [eraseSectors, if_neg h, hchip]
      set s' : SaveState :=
        { s with
          mem := eraseMem s.mem i (sectorSize s.mediaType),
          session := s.session ++ [i],
          eraseCount := s.eraseCount + 1 } with hs'
      have hrec := ih s' hndrest
      have hfilter :
          rest.filter (fun j => decide (j ∉ s'.session)) =
            rest.filter (fun j => decide (j ∉ s.session)) := by
        apply List.filter_congr
        intro j hj
        have hji : j ≠ i := fun hji => hnotmem (hji ▸ hj)
        simp [hs', List.mem_append, hji]
      refine ⟨hrec.1, hrec.2.1, ?_, ?_⟩
      · rw [hrec.2.2.1, hfilter]
        simp [hs', List.filter_cons, h, List.append_assoc]
      · rw [hrec.2.2.2, hfilter]
        simp only [hs', List.filter_cons]
        simp [h]
        omega

/-- Unfolding of an in-bounds `write`: it succeeds, changes no
bookkeeping, and overwrites exactly the addressed bytes. -/
lemma writeBytes_ok (s : SaveState) (o : Nat) (data : List Nat)
    (h : o + data.length ≤ s.len) :
    (writeBytes s o data).2 = none ∧
    (writeBytes s o data).1.mediaType = s.mediaType ∧
    (writeBytes s o data).1.session = s.session ∧
    (writeBytes s o data).1.eraseCount = s.eraseCount ∧
    ∀ a, (writeBytes s o data).1.mem a =
      if o ≤ a ∧ a < o + data.length then data.getD (a - o) 0 else s.mem a := by
  unfold writeBytes
  rw [if_neg (by omega)]
  exact ⟨rfl, rfl, rfl, rfl, fun a => rfl⟩

/-- Unfolding of an in-bounds `read`: the buffer comes back filled from
the medium. -/
lemma readBytes_ok (s : SaveState) (o n : Nat) (h : o + n ≤ s.len) :
    readBytes s o n = ((List.range n).map (fun i => s.mem (o + i)), none) := by
  unfold readBytes
  rw [if_neg (by omega)]

/-- Reading `l.length` bytes that hold exactly the bytes of `l` returns
`l`. -/
lemma map_range_getD (l : List Nat) :
    (List.range l.length).map (fun i => l.getD i 0) = l := by
  apply List.ext_getElem
  · simp
  · intro i hi1 hi2
    simp [List.getD_eq_getElem?_getD, List.getElem?_eq_getElem hi2]

/-- `prepare_write` over an in-bounds range with working hardware
succeeds and keeps the configured media type. -/
lemma prepareWrite_chipOk_ok (s : SaveState) (a b : Nat) (hb : b ≤ s.len) :
    (prepareWrite chipOk s a b).2 = none ∧
    (prepareWrite chipOk s a b).1.mediaType = s.mediaType := by
  unfold prepareWrite
  rw [if_neg (by omega)]
  by_cases hsz : sectorSize s.mediaType = 0
  · simp [hsz]
  · rw [if_neg hsz]
    have h :=
      eraseSectors_chipOk (sectorIdxList a b (sectorSize s.mediaType)) s
        (sectorIdxList_nodup a b (sectorSize s.mediaType))
    exact ⟨h.1, h.2.1⟩

/-- Walking a sector list that fails exactly at `j` erases the sectors
before `j`, then aborts with `j`'s error; the session keeps the sectors
erased before the failure. -/
lemma eraseSectors_fail (e : Error) (j : Nat) (l2 : List Nat) :
    ∀ (l1 : List Nat) (s : SaveState), l1.Nodup → j ∉ l1 →
    (∀ i ∈ l1, i ∉ s.session) → j ∉ s.session →
    (eraseSectors (chipFail j e) (l1 ++ j :: l2) s).2 = some e ∧
    (eraseSectors (chipFail j e) (l1 ++ j :: l2) s).1.session =
      s.session ++ l1 ∧
    (eraseSectors (chipFail j e) (l1 ++ j :: l2) s).1.eraseCount =
      s.eraseCount + l1.length := by
  intro l1
  induction l1 with
  | nil =>
    intro s _ _ _ hjs
    have hchip : chipFail j e j = some e := by simp [chipFail]
    simp [eraseSectors, if_neg hjs, hchip]
  | cons i l1' ih =>
    intro s hnd hjl hl1s hjs
    have hij : i ≠ j := by
      intro hh
      exact hjl (by simp [hh])
    have hil : i ∉ l1' := (List.nodup_cons.mp hnd).1
    have his : i ∉ s.session := hl1s i (by simp)
    have hchip : chipFail j e i = none := by simp [chipFail, hij]
    simp only [List.cons_append, eraseSectors, if_neg his, hchip]
    set s' : SaveState :=
      { s with
        mem := eraseMem s.mem i (sectorSize s.mediaType),
        session := s.session ++ [i],
        eraseCount := s.eraseCount + 1 } with hs'
    have hrec :=
      ih s' (List.nodup_cons.mp hnd).2
        (fun hh => hjl (List.mem_cons_of_mem i hh))
        (by
          intro i' hi'
          have h1 : i' ∉ s.session := hl1s i' (List.mem_cons_of_mem i hi')
          have h2 : i' ≠ i := fun hh => hil (hh ▸ hi')
          simp [hs', List.mem_append, h1, h2])
        (by
          simp only [hs', List.mem_append, List.mem_singleton]
          rintro (h | h)
          · exact hjs h
          · exact hij h.symm)
    refine ⟨hrec.1, ?_, ?_⟩
    · show (eraseSectors (chipFail j e) (l1' ++ j :: l2) s').1.session =
        s.session ++ i :: l1'
      rw [hrec.2.1]
      simp [hs', List.append_assoc]
    · show (eraseSectors (chipFail j e) (l1' ++ j :: l2) s').1.eraseCount =
        s.eraseCount + (i :: l1').length
      rw [hrec.2.2]
      simp [hs']
      omega

/-- On flash media an in-bounds `prepare_write` is exactly the erase
walk over the covering sector list. -/
lemma prepareWrite_flash (chip : Nat → Option Error) (s : SaveState)
    (a b : Nat) (hb : b ≤ s.len) (hsz : sectorSize s.mediaType ≠ 0) :
    prepareWrite chip s a b =
      eraseSectors chip (sectorIdxList a b (sectorSize s.mediaType)) s := by
  unfold prepareWrite
  rw [if_neg (by omega), if_neg hsz]

/-- Splitting `range'` at an interior point. -/
lemma range'_split (s m n : Nat) :
    List.range' s (m + n) = List.range' s m ++ List.range' (s + m) n := by
  have h := List.range'_append s m n 1
  simp only [one_mul] at h
  rw [Nat.add_comm m n, ← h]

/-- The chunks of the `do_test` loops tile the byte range exactly: the
concatenation of their half-open ranges is the whole half-open range
being processed. -/
lemma chunks_cover (bs : Nat) (hbs : 0 < bs) :
    ∀ n current,
      (chunks bs current (current + n)).flatMap
        (fun c => List.range' c.1 c.2) = List.range' current n := by
  intro n
  induction n using Nat.strong_induction_on with
  | _ n ih =>
    intro current
    by_cases hn : 0 < n
    · unfold chunks
      rw [dif_pos ⟨by omega, hbs⟩]
      simp only [Nat.add_sub_cancel_left]
      have hm : 1 ≤ min n bs := by omega
      have heq : current + n = current + min n bs + (n - min n bs) := by
        omega
      rw [List.flatMap_cons, heq, ih (n - min n bs) (by omega)
        (current + min n bs)]
      rw [← range'_split]
      congr 1
      omega
    · have hn0 : n = 0 := by omega
      subst hn0
      unfold chunks
      rw [dif_neg (by omega)]
      simp

/-- Every chunk visited by the `do_test` loops has size
`min (end - current, block_size)` at its own start position. -/
lemma chunks_size (bs : Nat) (hbs : 0 < bs) :
    ∀ n current c, c ∈ chunks bs current (current + n) →
      c.2 = min (current + n - c.1) bs := by
  intro n
  induction n using Nat.strong_induction_on with
  | _ n ih =>
    intro current c hc
    by_cases hn : 0 < n
    · rw [chunks, dif_pos ⟨by omega, hbs⟩] at hc
      simp only [Nat.add_sub_cancel_left] at hc
      rcases List.mem_cons.mp hc with h | h
      · subst h
        simp
      · have heq : current + n = current + min n bs + (n - min n bs) := by
          omega
        rw [heq] at h ⊢
        exact ih (n - min n bs) (by omega) (current + min n bs) c h
    · have hn0 : n = 0 := by omega
      subst hn0
      rw [chunks, dif_neg (by omega)] at hc
      simp at hc

/-- `rngState` after zero steps is the seed itself. -/
lemma rngState_zero (s : Nat) : rngState s 0 = s := rfl

/-- One more `next_u8` step threads the advanced state. -/
lemma rngState_succ (s n : Nat) :
    rngState s (n + 1) = rngState (rngNextU8 s).1 n := by
  show rngStateAux (n + 1) s = rngStateAux n (rngNextU8 s).1
  rfl

/-- Zero bytes from any seed is the empty list. -/
lemma rngBytes_zero (s : Nat) : rngBytes s 0 = [] := rfl

/-- One more byte is the produced byte consed onto the rest of the
stream from the advanced state. -/
lemma rngBytes_succ (s n : Nat) :
    rngBytes s (n + 1) = (rngNextU8 s).2 :: rngBytes (rngNextU8 s).1 n := by
  show rngBytesAux (n + 1) s = (rngNextU8 s).2 :: rngBytesAux n (rngNextU8 s).1
  rfl

/-- `rngBytes` produces exactly `n` bytes. -/
lemma rngBytes_length (s n : Nat) : (rngBytes s n).length = n := by
  induction n generalizing s with
  | zero => rfl
  | succ m ih => rw [rngBytes_succ, List.length_cons, ih]

/-- Producing `m + n` bytes is producing `m`, then `n` more from the
advanced state: the byte stream of a threaded RNG splits at any chunk
boundary. -/
lemma rngBytes_add (s m n : Nat) :
    rngBytes s (m + n) = rngBytes s m ++ rngBytes (rngState s m) n := by
  induction m generalizing s with
  | zero =>
    rw [Nat.zero_add, rngBytes_zero, rngState_zero, List.nil_append]
  | succ k ih =>
    rw [Nat.succ_add, rngBytes_succ, ih, rngBytes_succ, rngState_succ,
      List.cons_append]

/-- The write pass of `do_test`, run over an in-bounds range on working
hardware, succeeds, keeps the media type, and leaves the whole range
holding the RNG byte stream while leaving every other address
untouched. -/
lemma writeLoop_ok (bs : Nat) (hbs : 0 < bs) :
    ∀ d st rs current, current + d ≤ st.len →
    (writeLoop bs st rs current (current + d)).2.2 = none ∧
    (writeLoop bs st rs current (current + d)).1.mediaType = st.mediaType ∧
    ∀ a, (writeLoop bs st rs current (current + d)).1.mem a =
      if current ≤ a ∧ a < current + d then
        (rngBytes rs d).getD (a - current) 0
      else st.mem a := by
  intro d
  induction d using Nat.strong_induction_on with
  | _ d ih =>
    intro st rs current hle
    by_cases hd : 0 < d
    case neg =>
      have hd0 : d = 0 := by omega
      subst hd0
      rw [writeLoop, dif_neg (by omega)]
      refine ⟨rfl, rfl, ?_⟩
      intro a
      rw [if_neg (by omega)]
    case pos =>
      rw [writeLoop, dif_pos ⟨by omega, hbs⟩]
      simp only [Nat.add_sub_cancel_left]
      have hm1 : 1 ≤ min d bs := by omega
      have hmd : min d bs ≤ d := by omega
      have hwb := writeBytes_ok st current (rngBytes rs (min d bs))
        (by rw [rngBytes_length]; omega)
      rw [hwb.1, if_pos rfl]
      have hlen' : (writeBytes st current (rngBytes rs (min d bs))).1.len =
          st.len := by
        simp [SaveState.len, hwb.2.1]
      have heq : current + d = (current + min d bs) + (d - min d bs) := by
        omega
      rw [heq]
      have hrec := ih (d - min d bs) (by omega)
        (writeBytes st current (rngBytes rs (min d bs))).1
        (rngState rs (min d bs)) (current + min d bs) (by omega)
      refine ⟨hrec.1, by rw [hrec.2.1, hwb.2.1], ?_⟩
      intro a
      rw [hrec.2.2 a]
      have hsplit : rngBytes rs d =
          rngBytes rs (min d bs) ++
            rngBytes (rngState rs (min d bs)) (d - min d bs) := by
        rw [← rngBytes_add]
        congr 1
        omega
      have hwmem := hwb.2.2.2.2 a
      rw [rngBytes_length] at hwmem
      by_cases hA : a < current
      · rw [if_neg (by omega), hwmem, if_neg (by omega), if_neg (by omega)]
      · by_cases hB : a < current + min d bs
        · rw [if_neg (by omega), hwmem, if_pos ⟨by omega, by omega⟩,
            if_pos ⟨by omega, by omega⟩, hsplit,
            List.getD_append _ _ _ _ (by rw [rngBytes_length]; omega)]
        · by_cases hC : a < current + min d bs + (d - min d bs)
          · rw [if_pos ⟨by omega, by omega⟩, if_pos ⟨by omega, by omega⟩,
              hsplit,
              List.getD_append_right _ _ _ _
                (by rw [rngBytes_length]; omega),
              rngBytes_length, Nat.sub_sub]
          · rw [if_neg (by omega), hwmem, if_neg (by omega),
              if_neg (by omega)]

/-- The validation pass of `do_test`, run over an in-bounds range whose
memory holds exactly the RNG byte stream re-derived from the same seed,
passes every assertion. -/
lemma validateLoop_ok (bs : Nat) (hbs : 0 < bs) :
    ∀ d st rs current, current + d ≤ st.len →
    (∀ a, a < d → st.mem (current + a) = (rngBytes rs d).getD a 0) →
    validateLoop bs st rs current (current + d) = (none, true) := by
  intro d
  induction d using Nat.strong_induction_on with
  | _ d ih =>
    intro st rs current hle hmem
    by_cases hd : 0 < d
    case neg =>
      have hd0 : d = 0 := by omega
      subst hd0
      rw [validateLoop, dif_neg (by omega)]
    case pos =>
      rw [validateLoop, dif_pos ⟨by omega, hbs⟩]
      simp only [Nat.add_sub_cancel_left]
      have hm1 : 1 ≤ min d bs := by omega
      have hmd : min d bs ≤ d := by omega
      have hsplit : rngBytes rs d =
          rngBytes rs (min d bs) ++
            rngBytes (rngState rs (min d bs)) (d - min d bs) := by
        rw [← rngBytes_add]
        congr 1
        omega
      have hr := readBytes_ok st current (min d bs) (by omega)
      rw [hr]
      have hbytes : (List.range (min d bs)).map (fun i => st.mem (current + i))
          = rngBytes rs (min d bs) := by
        apply List.ext_getElem
        · simp [rngBytes_length]
        · intro i hi1 hi2
          have him : i < min d bs := by
            simpa [rngBytes_length] using hi2
          simp only [List.getElem_map, List.getElem_range]
          rw [hmem i (by omega), hsplit,
            List.getD_append _ _ _ _ (by rw [rngBytes_length]; omega)]
          simp [List.getD_eq_getElem?_getD, List.getElem?_eq_getElem hi2]
      rw [if_pos rfl, if_pos hbytes]
      have heq : current + d = (current + min d bs) + (d - min d bs) := by
        omega
      rw [heq]
      apply ih (d - min d bs) (by omega) st (rngState rs (min d bs))
        (current + min d bs) (by omega)
      intro a ha
      have h1 := hmem (min d bs + a) (by omega)
      rw [← Nat.add_assoc] at h1
      rw [h1, hsplit,
        List.getD_append_right _ _ _ _ (by rw [rngBytes_length]; omega),
        rngBytes_length, Nat.add_sub_cancel_left]

/-- `do_test` over any in-bounds range with a positive block size on
working hardware reports no error and passes every validation
assertion. -/
lemma doTest_ok (st : SaveState) (seed offset len bs : Nat)
    (hbs : 0 < bs) (hle : offset + len ≤ st.len) :
    (doTest st seed offset len bs).2 = (none, true) := by
  unfold doTest
  have hp := prepareWrite_chipOk_ok st offset (offset + len) hle
  rw [hp.1, if_pos rfl]
  have hlen1 : (prepareWrite chipOk st offset (offset + len)).1.len =
      st.len := by
    simp [SaveState.len, hp.2]
  have hw := writeLoop_ok bs hbs len
    (prepareWrite chipOk st offset (offset + len)).1 seed offset (by omega)
  rw [hw.1, if_pos rfl]
  have hlen2 :
      (writeLoop bs (prepareWrite chipOk st offset (offset + len)).1 seed
        offset (offset + len)).1.len = st.len := by
    simp [SaveState.len, hw.2.1, hp.2]
  have hv := validateLoop_ok bs hbs len
    (writeLoop bs (prepareWrite chipOk st offset (offset + len)).1 seed
      offset (offset + len)).1 seed offset (by omega)
    (by
      intro a ha
      rw [hw.2.2 (offset + a),
        if_pos ⟨Nat.le_add_right offset a, by omega⟩,
        Nat.add_sub_cancel_left])
  rw [hv]

/-! ## Claim theorems -/

/-- C2 (counterexample). The claim says the self-test scenario
configures media Flash64K with 65536 bytes; the source's `main` calls
`use_flash_128k()`, so the configured media type is Flash128K and its
size is 131072 bytes, not 65536. -/
theorem c2_main_media_counterexample :
    mainMediaType ≠ MediaType.Flash64K ∧ mediaLen mainMediaType ≠ 65536 := by
  decide

/-- C2 (amended). The repository's save self-test scenario configures
media Flash128K (131072 bytes, 4096-byte sectors), calls
`prepare_write(0..131072)`, writes pseudo-random bytes seeded with the
fixed generator state 1000 in 512-byte chunks, reads the data back in
512-byte chunks (the validation pass reuses the same block size as the
write pass), and every byte read matches the same generator sequence
re-derived from the same seed: the run reports no error and passes
every assertion. -/
theorem c2_main_scenario :
    mainMediaType = MediaType.Flash128K ∧
    mediaLen mainMediaType = 131072 ∧
    sectorSize mainMediaType = 4096 ∧
    mainHalfKTest.2 = (none, true) := by
  refine ⟨rfl, rfl, rfl, ?_⟩
  show (doTest (initState mainMediaType) 1000 0 (mediaLen mainMediaType)
    512).2 = (none, true)
  exact doTest_ok (initState mainMediaType) 1000 0 (mediaLen mainMediaType)
    512 (by omega)
    (by
      show 0 + mediaLen mainMediaType ≤ mediaLen mainMediaType
      omega)

/-- C3. For every `MediaType` variant, `SaveAccess::len()` equals that
variant's documented capacity exactly; in particular Flash128K gives
131072. -/
theorem c3_len_matches_capacity :
    (∀ st : SaveState, st.len = mediaLen st.mediaType) ∧
    mediaLen .Sram = 32768 ∧
    mediaLen .Flash64K = 65536 ∧
    mediaLen .Flash128K = 131072 ∧
    mediaLen .Eeprom512 = 512 ∧
    mediaLen .Eeprom8K = 8192 :=
  ⟨fun _ => rfl, rfl, rfl, rfl, rfl, rfl⟩

/-- C4. For every offset and length with `offset + length > len()`,
each of `write`, `read`, and `prepare_write` fails `OutOfBounds` and
performs no partial hardware access: the returned medium state is the
input state, unchanged. -/
theorem c4_out_of_bounds (chip : Nat → Option Error) (s : SaveState)
    (offset n : Nat) (bytes : List Nat) (hlen : bytes.length = n)
    (h : offset + n > s.len) :
    readBytes s offset n = ([], some .OutOfBounds) ∧
    writeBytes s offset bytes = (s, some .OutOfBounds) ∧
    prepareWrite chip s offset (offset + n) = (s, some .OutOfBounds) := by
  refine ⟨?_, ?_, ?_⟩
  · simp [readBytes, h]
  · simp [writeBytes, hlen, h]
  · have hb : offset + n > s.len := h
    simp [prepareWrite, hb]

/-- Witness for C4 at a concrete out-of-range input on a 512-byte
EEPROM. -/
theorem c4_out_of_bounds_witness :
    readBytes (initState .Eeprom512) 510 3 = ([], some .OutOfBounds) ∧
    writeBytes (initState .Eeprom512) 510 [1, 2, 3] =
      (initState .Eeprom512, some .OutOfBounds) ∧
    prepareWrite chipOk (initState .Eeprom512) 510 (510 + 3) =
      (initState .Eeprom512, some .OutOfBounds) :=
  c4_out_of_bounds chipOk (initState .Eeprom512) 510 3 [1, 2, 3] rfl
    (by decide)

/-- C6. Against a simulated chip that never reports completion, each of
`raw_erase_sector`, `raw_program`, and `raw_read` terminates with the
`Timeout` error after exactly its poll budget — a bounded,
deterministic number of poll iterations — rather than looping
forever. -/
theorem c6_dead_chip_times_out (status : Nat → Bool) (bound : Nat)
    (h : ∀ k, status k = false) :
    rawEraseSector status bound = (.error .Timeout, bound) ∧
    rawProgram status bound = (.error .Timeout, bound) ∧
    rawRead status bound = (.error .Timeout, bound) := by
  have hp := poll_never_ready status h bound 0
  rw [Nat.zero_add] at hp
  exact ⟨hp, hp, hp⟩

/-- Witness for C6: a concrete dead chip with poll budget 7. -/
theorem c6_dead_chip_times_out_witness :
    rawEraseSector (fun _ => false) 7 = (.error .Timeout, 7) ∧
    rawProgram (fun _ => false) 7 = (.error .Timeout, 7) ∧
    rawRead (fun _ => false) 7 = (.error .Timeout, 7) :=
  c6_dead_chip_times_out (fun _ => false) 7 (fun _ => rfl)

/-- C7. If no media type was ever selected by the process-wide
configuration call, `SaveAccess::new()` fails with `Unconfigured`. -/
theorem c7_unconfigured :
    saveAccessNew none = .error .Unconfigured :=
  rfl

/-- C9. The test harness's `Rng` is a deterministic pure function of its
`u32` state: each step updates the state to
`(state * 2891336453 + 100001) mod 2 ^ 32`, `next_u8` returns
`((state >> 22) XOR state)` truncated to 8 bits, and two clones of an
`Rng` with the same seed produce identical byte sequences (which is
what lets the validation pass of `do_test` re-derive the exact bytes
the write pass produced). -/
theorem c9_rng_deterministic (s s₁ s₂ n : Nat) (hclone : s₁ = s₂) :
    rngIter s = (s * 2891336453 + 100001) % 2 ^ 32 ∧
    (rngNextU8 s).2 = ((rngIter s >>> 22) ^^^ rngIter s) % 2 ^ 8 ∧
    rngBytes s₁ n = rngBytes s₂ n ∧
    rngState s₁ n = rngState s₂ n := by
  subst hclone
  exact ⟨rfl, xor_mod_two_pow _ _ 8, rfl, rfl⟩

/-- C1. Round-trip: for every offset `o` and length `n` with
`o + n ≤ len()`, `prepare_write(o..o+n)` followed by `write(o, data)`
followed by `read(o, buf)` yields `buf == data`, for arbitrary byte
content including `0x00` and `0xFF`: the bytes written are the bytes
later read back. -/
theorem c1_roundtrip (st : SaveState) (o n : Nat) (data : List Nat)
    (hlen : data.length = n) (hbytes : ∀ x ∈ data, x < 256)
    (hbound : o + n ≤ st.len) :
    (prepareWrite chipOk st o (o + n)).2 = none ∧
    (writeBytes (prepareWrite chipOk st o (o + n)).1 o data).2 = none ∧
    readBytes (writeBytes (prepareWrite chipOk st o (o + n)).1 o data).1 o n =
      (data, none) := by
  obtain ⟨h1, h2⟩ := prepareWrite_chipOk_ok st o (o + n) hbound
  set st1 := (prepareWrite chipOk st o (o + n)).1 with hst1
  have hlen1 : st1.len = st.len := by
    simp [SaveState.len, h2]
  have hw := writeBytes_ok st1 o data (by omega)
  set st2 := (writeBytes st1 o data).1 with hst2
  have hlen2 : st2.len = st1.len := by
    simp [SaveState.len, hw.2.1]
  refine ⟨h1, hw.1, ?_⟩
  rw [readBytes_ok st2 o n (by omega)]
  refine Prod.ext ?_ rfl
  show (List.range n).map (fun i => st2.mem (o + i)) = data
  have heach : ∀ i ∈ List.range n, st2.mem (o + i) = data.getD i 0 := by
    intro i hi
    have hi' : i < n := List.mem_range.mp hi
    rw [hw.2.2.2.2 (o + i), if_pos ⟨Nat.le_add_right o i, by omega⟩,
      Nat.add_sub_cancel_left]
  rw [List.map_congr_left heach, ← hlen, map_range_getD]

/-- Witness for C1: a three-byte round-trip (containing `0x00` and
`0xFF`) at offset 4 on a fresh Flash64K medium. -/
theorem c1_roundtrip_witness :
    (prepareWrite chipOk (initState .Flash64K) 4 (4 + 3)).2 = none ∧
    (writeBytes (prepareWrite chipOk (initState .Flash64K) 4 (4 + 3)).1 4
      [0, 255, 7]).2 = none ∧
    readBytes
      (writeBytes (prepareWrite chipOk (initState .Flash64K) 4 (4 + 3)).1 4
        [0, 255, 7]).1 4 3 = ([0, 255, 7], none) :=
  c1_roundtrip (initState .Flash64K) 4 3 [0, 255, 7] rfl (by decide)
    (by decide)

/-- C5. For flash media with sector size `s > 0`, `prepare_write(range)`
over an in-bounds non-empty range erases exactly the sectors with
indices in the inclusive set
`⌊range.start / s⌋ ..= ⌊(range.end - 1) / s⌋` that are not already
marked erased in the current session, in ascending index order (the
covering list is strictly ascending and new sectors are appended to the
session in that order), each sector is erased at most once per session
no matter how many `prepare_write` calls touch it (the erase count
increases by exactly the number of sectors newly marked), and repeating
`prepare_write` over the already-erased range performs no additional
physical erase (erase count and session unchanged) yet still permits a
subsequent `write` to succeed. -/
theorem c5_erase_once_per_session (st : SaveState) (a b : Nat)
    (bytes : List Nat) (hsz : 0 < sectorSize st.mediaType) (hab : a < b)
    (hb : b ≤ st.len) (hwb : a + bytes.length ≤ st.len) :
    sectorIdxList a b (sectorSize st.mediaType) =
      List.range' (a / sectorSize st.mediaType)
        ((b - 1) / sectorSize st.mediaType - a / sectorSize st.mediaType
          + 1) ∧
    (sectorIdxList a b (sectorSize st.mediaType)).Pairwise (· < ·) ∧
    (prepareWrite chipOk st a b).2 = none ∧
    (prepareWrite chipOk st a b).1.session =
      st.session ++
        (sectorIdxList a b (sectorSize st.mediaType)).filter
          (fun i => decide (i ∉ st.session)) ∧
    (prepareWrite chipOk st a b).1.eraseCount =
      st.eraseCount +
        ((sectorIdxList a b (sectorSize st.mediaType)).filter
          (fun i => decide (i ∉ st.session))).length ∧
    (prepareWrite chipOk (prepareWrite chipOk st a b).1 a b).2 = none ∧
    (prepareWrite chipOk (prepareWrite chipOk st a b).1 a b).1.eraseCount =
      (prepareWrite chipOk st a b).1.eraseCount ∧
    (prepareWrite chipOk (prepareWrite chipOk st a b).1 a b).1.session =
      (prepareWrite chipOk st a b).1.session ∧
    (writeBytes (prepareWrite chipOk (prepareWrite chipOk st a b).1 a b).1
      a bytes).2 = none := by
  have hsz' : sectorSize st.mediaType ≠ 0 := by omega
  have hform : sectorIdxList a b (sectorSize st.mediaType) =
      List.range' (a / sectorSize st.mediaType)
        ((b - 1) / sectorSize st.mediaType - a / sectorSize st.mediaType
          + 1) := by
    unfold sectorIdxList
    rw [if_pos hab]
  have hnod := sectorIdxList_nodup a b (sectorSize st.mediaType)
  have hpw1 : prepareWrite chipOk st a b =
      eraseSectors chipOk (sectorIdxList a b (sectorSize st.mediaType)) st :=
    prepareWrite_flash chipOk st a b hb hsz'
  have h1 := eraseSectors_chipOk (sectorIdxList a b (sectorSize st.mediaType))
    st hnod
  set st' := (prepareWrite chipOk st a b).1 with hst'
  have hmt' : st'.mediaType = st.mediaType := by
    rw [hst', hpw1]
    exact h1.2.1
  have hlen' : st'.len = st.len := by
    simp [SaveState.len, hmt']
  have hsess' : st'.session =
      st.session ++
        (sectorIdxList a b (sectorSize st.mediaType)).filter
          (fun i => decide (i ∉ st.session)) := by
    rw [hst', hpw1]
    exact h1.2.2.1
  have hsub : ∀ i ∈ sectorIdxList a b (sectorSize st.mediaType),
      i ∈ st'.session := by
    intro i hi
    rw [hsess', List.mem_append]
    by_cases h : i ∈ st.session
    · exact Or.inl h
    · exact Or.inr (List.mem_filter.mpr ⟨hi, by simp [h]⟩)
  have hfilter2 : (sectorIdxList a b (sectorSize st.mediaType)).filter
      (fun i => decide (i ∉ st'.session)) = [] := by
    rw [List.filter_eq_nil_iff]
    intro i hi
    simp [hsub i hi]
  have hpw2 : prepareWrite chipOk st' a b =
      eraseSectors chipOk (sectorIdxList a b (sectorSize st.mediaType))
        st' := by
    have h := prepareWrite_flash chipOk st' a b (by omega)
      (by rw [hmt']; exact hsz')
    rw [h, hmt']
  have h2 := eraseSectors_chipOk (sectorIdxList a b (sectorSize st.mediaType))
    st' hnod
  refine ⟨hform, sectorIdxList_pairwise a b (sectorSize st.mediaType),
    ?_, hsess', ?_, ?_, ?_, ?_, ?_⟩
  · rw [hpw1]
    exact h1.1
  · rw [hst', hpw1]
    exact h1.2.2.2
  · rw [hpw2]
    exact h2.1
  · rw [hpw2]
    rw [h2.2.2.2, hfilter2]
    simp
  · rw [hpw2]
    rw [h2.2.2.1, hfilter2]
    simp
  · have hmt'' : (prepareWrite chipOk st' a b).1.mediaType = st'.mediaType := by
      rw [hpw2]
      exact h2.2.1
    have hlen'' : (prepareWrite chipOk st' a b).1.len = st.len := by
      simp [SaveState.len, hmt'', hmt']
    exact (writeBytes_ok (prepareWrite chipOk st' a b).1 a bytes
      (by omega)).1

/-- Witness for C5: a range spanning sectors 0 and 1 of a fresh Flash64K
medium, followed by a two-byte write. -/
theorem c5_erase_once_per_session_witness :
    sectorIdxList 0 4097 (sectorSize (initState .Flash64K).mediaType) =
      List.range' 0 2 ∧
    (sectorIdxList 0 4097
      (sectorSize (initState .Flash64K).mediaType)).Pairwise (· < ·) ∧
    (prepareWrite chipOk (initState .Flash64K) 0 4097).2 = none ∧
    (prepareWrite chipOk (initState .Flash64K) 0 4097).1.session =
      [] ++ (sectorIdxList 0 4097
        (sectorSize (initState .Flash64K).mediaType)).filter
          (fun i => decide (i ∉ ([] : List Nat))) ∧
    (prepareWrite chipOk (initState .Flash64K) 0 4097).1.eraseCount =
      0 + ((sectorIdxList 0 4097
        (sectorSize (initState .Flash64K).mediaType)).filter
          (fun i => decide (i ∉ ([] : List Nat)))).length ∧
    (prepareWrite chipOk
      (prepareWrite chipOk (initState .Flash64K) 0 4097).1 0 4097).2 =
        none ∧
    (prepareWrite chipOk
      (prepareWrite chipOk (initState .Flash64K) 0 4097).1 0 4097).1.eraseCount
      = (prepareWrite chipOk (initState .Flash64K) 0 4097).1.eraseCount ∧
    (prepareWrite chipOk
      (prepareWrite chipOk (initState .Flash64K) 0 4097).1 0 4097).1.session
      = (prepareWrite chipOk (initState .Flash64K) 0 4097).1.session ∧
    (writeBytes
      (prepareWrite chipOk
        (prepareWrite chipOk (initState .Flash64K) 0 4097).1 0 4097).1 0
      [1, 2]).2 = none := by
  have h := c5_erase_once_per_session (initState .Flash64K) 0 4097 [1, 2]
    (by decide) (by decide) (by decide) (by decide)
  have hr : sectorIdxList 0 4097 (sectorSize (initState .Flash64K).mediaType)
      = List.range' 0 2 := by decide
  exact ⟨hr, h.2.1, h.2.2.1, h.2.2.2.1, h.2.2.2.2.1, h.2.2.2.2.2.1,
    h.2.2.2.2.2.2.1, h.2.2.2.2.2.2.2.1, h.2.2.2.2.2.2.2.2⟩

/-- C8. When the erase of a single sector `j` inside a `prepare_write`
call fails, the whole call aborts returning that sector's error as its
one all-or-nothing result, and the sectors erased earlier in the same
call remain erased (they stay marked in the session and counted by the
erase counter — no rollback). -/
theorem c8_erase_failure_aborts (st : SaveState) (a b j : Nat)
    (l1 l2 : List Nat) (e : Error) (hsession : st.session = [])
    (hsz : 0 < sectorSize st.mediaType) (hb : b ≤ st.len)
    (hdecomp : sectorIdxList a b (sectorSize st.mediaType) =
      l1 ++ j :: l2) :
    (prepareWrite (chipFail j e) st a b).2 = some e ∧
    (prepareWrite (chipFail j e) st a b).1.session = l1 ∧
    (prepareWrite (chipFail j e) st a b).1.eraseCount =
      st.eraseCount + l1.length := by
  have hpw : prepareWrite (chipFail j e) st a b =
      eraseSectors (chipFail j e)
        (sectorIdxList a b (sectorSize st.mediaType)) st :=
    prepareWrite_flash (chipFail j e) st a b hb (by omega)
  have hnod : (l1 ++ j :: l2).Nodup := by
    rw [← hdecomp]
    exact sectorIdxList_nodup a b (sectorSize st.mediaType)
  obtain ⟨hnod1, hnod2, hdisj⟩ := List.nodup_append.mp hnod
  have hjl1 : j ∉ l1 := fun h => hdisj h (List.mem_cons_self j l2)
  have hf := eraseSectors_fail e j l2 l1 st hnod1 hjl1
    (by
      intro i _
      rw [hsession]
      exact List.not_mem_nil i)
    (by
      rw [hsession]
      exact List.not_mem_nil j)
  rw [hpw, hdecomp]
  refine ⟨hf.1, ?_, hf.2.2⟩
  rw [hf.2.1, hsession, List.nil_append]

/-- Witness for C8: on a fresh Flash64K medium, `prepare_write(0..12289)`
covers sectors `[0, 1, 2, 3]`; a chip whose sector 2 fails with
`Timeout` leaves sectors 0 and 1 erased and aborts with `Timeout`. -/
theorem c8_erase_failure_aborts_witness :
    (prepareWrite (chipFail 2 .Timeout) (initState .Flash64K) 0 12289).2 =
      some .Timeout ∧
    (prepareWrite (chipFail 2 .Timeout)
      (initState .Flash64K) 0 12289).1.session = [0, 1] ∧
    (prepareWrite (chipFail 2 .Timeout)
      (initState .Flash64K) 0 12289).1.eraseCount = 0 + 2 :=
  c8_erase_failure_aborts (initState .Flash64K) 0 12289 2 [0, 1] [3]
    .Timeout rfl (by decide) (by decide) (by decide)

/-- C10. For every `offset`, `len`, and `block_size` with
`1 ≤ block_size ≤ 4096` (`MAX_BLOCK_SIZE`) and
`offset + len ≤ the media length`, the write loop and the validation
loop of `do_test` terminate (their chunk sequence is the finite list
`chunks`) and together touch every byte of `[offset, offset + len)`
exactly once — the concatenation of the chunk ranges is exactly that
half-open range — in successive chunks of size
`min (end - current) block_size`; and if `block_size = 0` and
`len > 0`, the loop counter never moves (`loopStep` is the identity at
every iteration count `k`) so the guard `current != end` never becomes
false: the loop does not terminate. -/
theorem c10_do_test_loops (offset len bs L k : Nat) (ck : Nat × Nat)
    (hbs1 : 1 ≤ bs) (hbs2 : bs ≤ MAX_BLOCK_SIZE)
    (hlen : offset + len ≤ L)
    (hck : ck ∈ chunks bs offset (offset + len)) :
    (chunks bs offset (offset + len)).flatMap chunkRange =
      List.range' offset len ∧
    ck.2 = min (offset + len - ck.1) bs ∧
    (loopStep 0 (offset + len))^[k] offset = offset ∧
    (0 < len → (loopStep 0 (offset + len))^[k] offset ≠ offset + len) := by
  have hfix : loopStep 0 (offset + len) offset = offset := by
    simp [loopStep]
  have hiter : (loopStep 0 (offset + len))^[k] offset = offset :=
    Function.iterate_fixed hfix k
  refine ⟨chunks_cover bs (by omega) len offset,
    chunks_size bs (by omega) len offset ck hck, hiter, ?_⟩
  intro hl
  rw [hiter]
  omega

/-- Witness for C10: offset 3, length 5, block size 2 on a 10-byte
medium; the loop visits chunks `(3,2) (5,2) (7,1)` and the `bs = 0`
loop counter is still stuck at 3 after 4 iterations. -/
theorem c10_do_test_loops_witness :
    (chunks 2 3 (3 + 5)).flatMap chunkRange = List.range' 3 5 ∧
    (7, 1).2 = min (3 + 5 - (7, 1).1) 2 ∧
    (loopStep 0 (3 + 5))^[4] 3 = 3 ∧
    (0 < 5 → (loopStep 0 (3 + 5))^[4] 3 ≠ 3 + 5) :=
  c10_do_test_loops 3 5 2 10 4 (7, 1) (by decide) (by decide) (by decide)
    (by
      have h : chunks 2 3 8 = [(3, 2), (5, 2), (7, 1)] := by
        rw [chunks]; norm_num
        rw [chunks]; norm_num
        rw [chunks]; norm_num
        rw [chunks]; norm_num
      norm_num [h])

theorem c9_rng_deterministic_witness :
    rngIter 1000 = (1000 * 2891336453 + 100001) % 2 ^ 32 ∧
    (rngNextU8 1000).2 = ((rngIter 1000 >>> 22) ^^^ rngIter 1000) % 2 ^ 8 ∧
    rngBytes 1000 5 = rngBytes 1000 5 ∧
    rngState 1000 5 = rngState 1000 5 :=
  c9_rng_deterministic 1000 1000 1000 5 rfl

end GbaSave
